import Mathlib

set_option maxRecDepth 8000

/-!
# PolySche: verification of the spec against the source

Shallow embedding of the PolySche library:

* `RatZ` embeds `Rational<T>` from `src/include/rational.hpp` (numerator /
  denominator pairs of signed integers, modelled with unbounded `ℤ` since the
  spec documents overflow as an accepted, unmodelled limitation).  The C++
  integer division `/` truncates toward zero, so the embedding uses `Int.tdiv`;
  every division performed by the source is exact (by a divisor dividing its
  operand), where `Int.tdiv` agrees with every other rounding convention.
* `gauss`, `gaussInv` embed the Gauss-Jordan routines of
  `src/include/polysche/gauss.hpp`, instantiated at the exact rational field
  `ℚ` (the generic parameter `T` of the source at an exact rational type).
* `Poly` embeds `Polynomial<T, Degree, N>` from
  `src/include/polysche/polynomial.hpp` over `ℚ`.
* `Scheme` embeds `PolynomialScheme<Order, T>` from
  `src/include/polynomial_scheme.hpp` over `ℚ`.
-/

namespace PolySche

/-! ## Rational numbers: `src/include/rational.hpp` -/

/-- The data of `Rational<T>`: numerator `p`, denominator `q`
(`src/include/rational.hpp:23`). -/
structure RatZ where
  p : ℤ
  q : ℤ
  deriving DecidableEq

/-- The constructor `Rational(T pp, T qq)` (`src/include/rational.hpp:25-41`):
replace a zero denominator by 1 (dead after the assertion `qq != 0`), divide
both components by `std::gcd(pp, qq)` (the non-negative gcd; the C++ division
truncates toward zero, hence `Int.tdiv`), and flip both signs when the reduced
denominator is negative. -/
def RatZ.make (pp qq : ℤ) : RatZ :=
  let qq' : ℤ := if qq = 0 then 1 else qq
  let g : ℤ := Int.gcd pp qq'
  let p1 : ℤ := pp.tdiv g
  let q1 : ℤ := qq'.tdiv g
  if q1 < 0 then { p := -p1, q := -q1 } else { p := p1, q := q1 }

/-- `operator*` (`src/include/rational.hpp:127-138`). -/
def RatZ.mul (a b : RatZ) : RatZ := RatZ.make (a.p * b.p) (a.q * b.q)

/-- `operator/` (`src/include/rational.hpp:140-151`). -/
def RatZ.div (a b : RatZ) : RatZ := RatZ.make (a.p * b.q) (a.q * b.p)

/-- `operator+` (`src/include/rational.hpp:153-165`): scale each numerator to
the `std::lcm` of the denominators (both scalings are exact divisions; the
source binds the lcm to a local `lcm`, written out here). -/
def RatZ.add (a b : RatZ) : RatZ :=
  RatZ.make
    (a.p * (Int.lcm a.q b.q : ℤ).tdiv a.q + b.p * (Int.lcm a.q b.q : ℤ).tdiv b.q)
    (Int.lcm a.q b.q)

/-- `operator-` (`src/include/rational.hpp:167-179`). -/
def RatZ.sub (a b : RatZ) : RatZ :=
  RatZ.make
    (a.p * (Int.lcm a.q b.q : ℤ).tdiv a.q - b.p * (Int.lcm a.q b.q : ℤ).tdiv b.q)
    (Int.lcm a.q b.q)

/-- `operator==` (`src/include/rational.hpp:181-195`): the cross-multiplied
comparison `lhs.p * rhs.q == lhs.q * rhs.p`. -/
def RatZ.eqR (a b : RatZ) : Prop := a.p * b.q = a.q * b.p

instance (a b : RatZ) : Decidable (a.eqR b) :=
  inferInstanceAs (Decidable (a.p * b.q = a.q * b.p))

/-- `std::signbit` on a signed integer converted to a floating type: true
exactly on the negatives. -/
def sbInt (x : ℤ) : Bool := decide (x < 0)

/-- `signbit(Rational const&)` (`src/include/rational.hpp:236-240`):
`not(std::signbit(r.p) xor std::signbit(r.q))`, exactly as written. -/
def RatZ.signbit (r : RatZ) : Bool := !(Bool.xor (sbInt r.p) (sbInt r.q))

/-- The canonical-form invariant of the spec: positive denominator and
coprime components (`gcd(|p|, q) = 1`; `Int.gcd` is the gcd of the absolute
values). -/
def RatZ.Canonical (r : RatZ) : Prop := 0 < r.q ∧ Int.gcd r.p r.q = 1

instance (r : RatZ) : Decidable r.Canonical :=
  inferInstanceAs (Decidable (0 < r.q ∧ Int.gcd r.p r.q = 1))

/-- The value a `RatZ` stands for, in `ℚ`. -/
def RatZ.val (r : RatZ) : ℚ := (r.p : ℚ) / (r.q : ℚ)

/-! ## Gauss-Jordan elimination: `src/include/polysche/gauss.hpp`

The routines are templates over any field-like `T`; the claims are about the
exact-rational instantiation, embedded here over `ℚ`. -/

/-- An M×N matrix over the exact rationals (`std::array<std::array<T, N>, M>`). -/
abbrev Mat (M N : ℕ) : Type := Matrix (Fin M) (Fin N) ℚ

/-- The pivot-selection scan of `gauss` (`src/include/polysche/gauss.hpp:34-41`):
starting from candidate `k = r`, every row `i > r` whose entry in column `j`
has strictly larger absolute value than the current candidate becomes the new
candidate (rows are scanned upward, so ties keep the earliest row). -/
def pivotSearch {M N : ℕ} (A : Mat M N) (j : Fin N) (r : Fin M) : Fin M :=
  (List.finRange M).foldl (fun k i => if r < i ∧ |A i j| > |A k j| then i else k) r

/-- Normalization of the pivot row (`src/include/polysche/gauss.hpp:45-46`):
divide every entry of row `k` by the pivot value `kv`. -/
def scaleRow {M N : ℕ} (A : Mat M N) (k : Fin M) (kv : ℚ) : Mat M N :=
  Matrix.of fun i jj => if i = k then A i jj / kv else A i jj

/-- The row swap (`src/include/polysche/gauss.hpp:48-49`), exchanging rows `k`
and `r` (`swap_array`); the identity when `k = r`, as in the guarded source. -/
def swapRows {M N : ℕ} (A : Mat M N) (k r : Fin M) : Mat M N :=
  Matrix.of fun i jj => if i = k then A r jj else if i = r then A k jj else A i jj

/-- The elimination sweep (`src/include/polysche/gauss.hpp:51-59`): from every
row `i ≠ r` subtract `A[i][j]` times the pivot row `r` (the multiplier `c` is
read before row `i` is modified, and row `r` itself is left alone, so the
simultaneous functional update agrees with the sequential loop). -/
def elimCol {M N : ℕ} (A : Mat M N) (r : Fin M) (j : Fin N) : Mat M N :=
  Matrix.of fun i jj => if i = r then A i jj else A i jj - A r jj * A i j

/-- One iteration of the column loop of `gauss`
(`src/include/polysche/gauss.hpp:32-62`) on the state `(r, A)`: select the
pivot of column `j`, skip the column if it is zero (`continue`), otherwise
normalize, swap into place, eliminate, and advance the pivot row.  The source
loop also stops when `r = M`; that is rendered by making further iterations
the identity, which leaves the same final state. -/
def gaussStep {M N : ℕ} (j : ℕ) (s : ℕ × Mat M N) : ℕ × Mat M N :=
  if hj : j < N then
    if hr : s.1 < M then
      let k := pivotSearch s.2 ⟨j, hj⟩ ⟨s.1, hr⟩
      if s.2 k ⟨j, hj⟩ = 0 then s
      else
        (s.1 + 1,
          elimCol (swapRows (scaleRow s.2 k (s.2 k ⟨j, hj⟩)) k ⟨s.1, hr⟩)
            ⟨s.1, hr⟩ ⟨j, hj⟩)
    else s
  else s

/-- The column loop of `gauss` run over the first `t` columns. -/
def gaussFold {M N : ℕ} (t : ℕ) (A : Mat M N) : ℕ × Mat M N :=
  (List.range t).foldl (fun s j => gaussStep j s) (0, A)

/-- `gauss` (`src/include/polysche/gauss.hpp:26-65`): Gauss-Jordan elimination
of an M×N matrix, columns processed left to right starting from pivot row 0. -/
def gauss {M N : ℕ} (A : Mat M N) : Mat M N := (gaussFold N A).2

/-- The matrix `A` augmented with the N×N identity on the right
(`src/include/polysche/gauss.hpp:96-104`). -/
def augId {n : ℕ} (A : Mat n n) : Mat n (n + n) :=
  Matrix.of fun i j =>
    if h : (j : ℕ) < n then A i ⟨j, h⟩ else if i.1 + n = j.1 then 1 else 0

/-- `gauss_inv` (`src/include/polysche/gauss.hpp:94-113`): eliminate the
augmented matrix `[A | I]` and read back the right half. -/
def gaussInv {n : ℕ} (A : Mat n n) : Mat n n :=
  Matrix.of fun i j => gauss (augId A) i ⟨j.1 + n, by omega⟩

/-- `gaussStep` instrumented with the divisions it performs: every division in
the body of `gauss` is the pivot-row normalization `A[k][jj] / kv`
(`src/include/polysche/gauss.hpp:46`), so each processed column appends its
pivot value `kv` — the lone divisor — to the log. -/
def gaussStepLog {M N : ℕ} (j : ℕ) (s : ℕ × Mat M N × List ℚ) :
    ℕ × Mat M N × List ℚ :=
  if hj : j < N then
    if hr : s.1 < M then
      let k := pivotSearch s.2.1 ⟨j, hj⟩ ⟨s.1, hr⟩
      if s.2.1 k ⟨j, hj⟩ = 0 then s
      else
        (s.1 + 1,
          elimCol (swapRows (scaleRow s.2.1 k (s.2.1 k ⟨j, hj⟩)) k ⟨s.1, hr⟩)
            ⟨s.1, hr⟩ ⟨j, hj⟩,
          s.2.2 ++ [s.2.1 k ⟨j, hj⟩])
    else s
  else s

/-- `gauss` together with the list of every divisor it used. -/
def gaussLog {M N : ℕ} (A : Mat M N) : Mat M N × List ℚ :=
  ((List.range N).foldl (fun s j => gaussStepLog j s) (0, A, [])).2

/-- `B'` arises from `B` by an invertible sequence of row operations:
`B' = E * B` for some matrix `E` of non-zero determinant.  Every pass of the
elimination loop transforms the working matrix this way. -/
def RowEquiv {n m : ℕ} (B B' : Matrix (Fin n) (Fin m) ℚ) : Prop :=
  ∃ E : Matrix (Fin n) (Fin n) ℚ, E.det ≠ 0 ∧ B' = E * B

/-- The loop invariant of `gauss` on the augmented matrix `[A | I]` after the
first `t` columns have been processed (for `t ≤ n`, assuming no column was
skipped): the pivot row counter equals `t`, the working matrix is an
invertible row transform of the original, and the first `t` columns have been
reduced to the corresponding identity columns. -/
def augRel {n : ℕ} (A : Mat n n) (t : ℕ) (s : ℕ × Mat n (n + n)) : Prop :=
  s.1 = t ∧ RowEquiv (augId A) s.2 ∧
    ∀ (jv : ℕ), jv < t → ∀ (hjn : jv < n + n) (i : Fin n),
      s.2 i ⟨jv, hjn⟩ = if i.1 = jv then 1 else 0

/-! ## Polynomials: `src/include/polysche/polynomial.hpp` -/

/-- `Polynomial<T, Degree, N>` over `ℚ`: a `(Degree+1) × N` coefficient table,
`coeffs[d][i]` the coefficient of `x^d` for output channel `i`. -/
structure Poly (Deg N : ℕ) where
  coeffs : Fin (Deg + 1) → Fin N → ℚ

instance {Deg N : ℕ} : DecidableEq (Poly Deg N) := fun P Q =>
  decidable_of_iff (P.coeffs = Q.coeffs) (by cases P; cases Q; simp)

/-- `operator()` (`src/include/polysche/polynomial.hpp:29-48`): start from the
constant row, then for each degree `1..Degree` accumulate `coeffs[d][i] * xi`
while `xi` steps through `x, x², …`. -/
def Poly.eval {Deg N : ℕ} (P : Poly Deg N) (x : ℚ) : Fin N → ℚ :=
  ((List.finRange Deg).foldl
    (fun (acc : (Fin N → ℚ) × ℚ) d =>
      ((fun i => acc.1 i + P.coeffs ⟨d.1 + 1, by omega⟩ i * acc.2), acc.2 * x))
    ((fun i => P.coeffs ⟨0, by omega⟩ i), x)).1

/-- The body of the derivative loop
(`src/include/polysche/polynomial.hpp:59-62`): a zero-filled same-shape table
with `coeffs'[d-1][i] = d * coeffs[d][i]` for `d` in `[1, Degree]` (the top
row stays zero). -/
def Poly.derivateOnce {Deg N : ℕ} (P : Poly Deg N) : Poly Deg N :=
  ⟨fun d i =>
    if h : d.1 + 1 < Deg + 1 then ((d.1 + 1 : ℕ) : ℚ) * P.coeffs ⟨d.1 + 1, h⟩ i
    else 0⟩

/-- `derivate(order)` (`src/include/polysche/polynomial.hpp:50-64`), with the
source's branch structure kept exactly: `order == 0` or `Degree == 0` returns
the receiver; otherwise `Degree == 1` returns the zero polynomial outright
(for every positive order); otherwise one derivative step is taken and the
call recurses with `order - 1`. -/
def Poly.derivate {Deg N : ℕ} (P : Poly Deg N) : ℕ → Poly Deg N
  | 0 => P
  | o + 1 =>
    if Deg = 0 then P
    else if Deg = 1 then ⟨fun _ _ => 0⟩
    else Poly.derivate (Poly.derivateOnce P) o

/-- `primitive()` (`src/include/polysche/polynomial.hpp:66-73`): one degree
higher, `coeffs'[d][i] = coeffs[d-1][i] / d` for `d` in `[1, Degree+1]`, zero
constant row. -/
def Poly.primitive {Deg N : ℕ} (P : Poly Deg N) : Poly (Deg + 1) N :=
  ⟨fun d i =>
    if h : 1 ≤ d.1 then P.coeffs ⟨d.1 - 1, by omega⟩ i / ((d.1 : ℕ) : ℚ)
    else 0⟩

/-! ## The scheme builder: `src/include/polynomial_scheme.hpp` -/

/-- `PolynomialScheme<Order, T>` over `ℚ`: the accumulated
`(Order+1) × (Order+1)` constraint matrix and the row-insertion cursor. -/
structure Scheme (Order : ℕ) where
  matrix : Mat (Order + 1) (Order + 1)
  index : ℕ

/-- A freshly value-initialized `PolynomialScheme<Order>{}`: the `Rational`
default constructor zero-fills the matrix, and `index = 0`. -/
def Scheme.init (Order : ℕ) : Scheme Order :=
  ⟨Matrix.of fun _ _ => 0, 0⟩

/-- `get_polynomial()` (`src/include/polynomial_scheme.hpp:18-24`): the
canonical basis polynomial with `coeffs[d][d] = 1`, so channel `i` is the
monomial `x^i`.  It reads no state of the builder. -/
def Scheme.getPolynomial {Order : ℕ} (_S : Scheme Order) : Poly Order (Order + 1) :=
  ⟨fun d i => if d.1 = i.1 then 1 else 0⟩

/-- `add_eqn` (`src/include/polynomial_scheme.hpp:26-32`): copy the builder,
write the coefficient row at the cursor, advance the cursor.  Writing past the
last row is out of contract in the source (an out-of-bounds array write); it
is rendered here as leaving the matrix unchanged, a case no claim exercises. -/
def Scheme.addEqn {Order : ℕ} (S : Scheme Order) (coeffs : Fin (Order + 1) → ℚ) :
    Scheme Order :=
  { matrix := Matrix.of fun i jj =>
      if h : S.index < Order + 1 then
        if i = ⟨S.index, h⟩ then coeffs jj else S.matrix i jj
      else S.matrix i jj,
    index := S.index + 1 }

/-- `solve()` (`src/include/polynomial_scheme.hpp:34-39`): a `const` member
that packages `gauss_inv(matrix)` as the coefficient table of a new
polynomial.  It reads only `matrix` — never `index`. -/
def Scheme.solve {Order : ℕ} (S : Scheme Order) : Poly Order (Order + 1) :=
  ⟨gaussInv S.matrix⟩

/-! ## Concrete inputs used by the claim theorems -/

/-- The polynomial `x` (Degree 1, one channel): coefficients `(0, 1)`. -/
def xPoly : Poly 1 1 := ⟨fun d _ => if d.1 = 1 then 1 else 0⟩

/-- The constant polynomial `1` (Degree 0, one channel). -/
def onePoly : Poly 0 1 := ⟨fun _ _ => 1⟩

/-- The singular 1×1 matrix `[[0]]`. -/
def singularOne : Mat 1 1 := Matrix.of fun _ _ => 0

/-- The central three-point finite-difference builder: `Order = 2` and the
three constraint rows are the canonical basis evaluated at `-1`, `0`, `1`, in
that order (`src/tests/test_polynomial_scheme.cpp:26-31`). -/
def fd3 : Scheme 2 :=
  (((Scheme.init 2).addEqn (((Scheme.init 2).getPolynomial).eval (-1))).addEqn
      (((Scheme.init 2).getPolynomial).eval 0)).addEqn
    (((Scheme.init 2).getPolynomial).eval 1)

/-! ### Canonicality of `RatZ.make` and the arithmetic operators -/

theorem RatZ.make_canonical (pp qq : ℤ) (hq : qq ≠ 0) :
    (RatZ.make pp qq).Canonical := by
  unfold RatZ.make
  simp only [if_neg hq]
  have hgpos : 0 < Int.gcd pp qq := Int.gcd_pos_iff.mpr (Or.inr hq)
  have hgz : (Int.gcd pp qq : ℤ) ≠ 0 := by exact_mod_cast hgpos.ne'
  have hdp : (Int.gcd pp qq : ℤ) ∣ pp := Int.gcd_dvd_left
  have hdq : (Int.gcd pp qq : ℤ) ∣ qq := Int.gcd_dvd_right
  have hp1 : pp.tdiv (Int.gcd pp qq) = pp / (Int.gcd pp qq) :=
    Int.tdiv_eq_ediv_of_dvd hdp
  have hq1 : qq.tdiv (Int.gcd pp qq) = qq / (Int.gcd pp qq) :=
    Int.tdiv_eq_ediv_of_dvd hdq
  have hco : (pp / (Int.gcd pp qq)).gcd (qq / (Int.gcd pp qq)) = 1 :=
    Int.gcd_div_gcd_div_gcd hgpos
  have hq1ne : qq / (Int.gcd pp qq) ≠ 0 := by
    intro h0
    apply hq
    have := Int.ediv_mul_cancel hdq
    rw [h0, zero_mul] at this
    exact this.symm
  rw [hp1, hq1]
  by_cases hneg : qq / (Int.gcd pp qq) < 0
  · rw [if_pos hneg]
    constructor
    · show 0 < -(qq / (Int.gcd pp qq))
      omega
    · show Int.gcd (-(pp / (Int.gcd pp qq))) (-(qq / (Int.gcd pp qq))) = 1
      simpa [Int.neg_gcd, Int.gcd_neg] using hco
  · rw [if_neg hneg]
    constructor
    · show 0 < qq / (Int.gcd pp qq)
      omega
    · exact hco

theorem RatZ.make_self (r : RatZ) (h : r.Canonical) : RatZ.make r.p r.q = r := by
  obtain ⟨hq, hg⟩ := h
  unfold RatZ.make
  simp only [if_neg hq.ne', hg]
  have h1 : ((1 : ℕ) : ℤ) = 1 := rfl
  rw [h1, Int.tdiv_one, Int.tdiv_one, if_neg (by omega : ¬ r.q < 0)]

theorem RatZ.mul_canonical (a b : RatZ) (ha : a.Canonical) (hb : b.Canonical) :
    (a.mul b).Canonical :=
  RatZ.make_canonical _ _ (mul_ne_zero ha.1.ne' hb.1.ne')

theorem RatZ.div_canonical (a b : RatZ) (ha : a.Canonical) (hbp : b.p ≠ 0) :
    (a.div b).Canonical :=
  RatZ.make_canonical _ _ (mul_ne_zero ha.1.ne' hbp)

theorem RatZ.lcm_ne_zero (a b : RatZ) (ha : a.Canonical) (hb : b.Canonical) :
    (Int.lcm a.q b.q : ℤ) ≠ 0 := by
  have : Int.lcm a.q b.q ≠ 0 := by
    unfold Int.lcm
    exact Nat.lcm_ne_zero (Int.natAbs_ne_zero.mpr ha.1.ne')
      (Int.natAbs_ne_zero.mpr hb.1.ne')
  exact_mod_cast this

theorem RatZ.add_canonical (a b : RatZ) (ha : a.Canonical) (hb : b.Canonical) :
    (a.add b).Canonical :=
  RatZ.make_canonical _ _ (RatZ.lcm_ne_zero a b ha hb)

theorem RatZ.sub_canonical (a b : RatZ) (ha : a.Canonical) (hb : b.Canonical) :
    (a.sub b).Canonical :=
  RatZ.make_canonical _ _ (RatZ.lcm_ne_zero a b ha hb)

/-! ### The value semantics of `RatZ` -/

theorem RatZ.val_make (pp qq : ℤ) (hq : qq ≠ 0) :
    (RatZ.make pp qq).val = (pp : ℚ) / (qq : ℚ) := by
  unfold RatZ.make
  simp only [if_neg hq]
  have hgpos : 0 < Int.gcd pp qq := Int.gcd_pos_iff.mpr (Or.inr hq)
  have hgz : (Int.gcd pp qq : ℤ) ≠ 0 := by exact_mod_cast hgpos.ne'
  have hp1 : pp.tdiv (Int.gcd pp qq) = pp / (Int.gcd pp qq) :=
    Int.tdiv_eq_ediv_of_dvd Int.gcd_dvd_left
  have hq1 : qq.tdiv (Int.gcd pp qq) = qq / (Int.gcd pp qq) :=
    Int.tdiv_eq_ediv_of_dvd Int.gcd_dvd_right
  have hpe : pp / (Int.gcd pp qq) * (Int.gcd pp qq) = pp :=
    Int.ediv_mul_cancel Int.gcd_dvd_left
  have hqe : qq / (Int.gcd pp qq) * (Int.gcd pp qq) = qq :=
    Int.ediv_mul_cancel Int.gcd_dvd_right
  have hq1ne : qq / (Int.gcd pp qq) ≠ 0 := by
    intro h0
    apply hq
    rw [h0, zero_mul] at hqe
    exact hqe.symm
  have hz : (pp / (Int.gcd pp qq)) * qq = pp * (qq / (Int.gcd pp qq)) := by
    linear_combination (qq / (Int.gcd pp qq)) * hpe - (pp / (Int.gcd pp qq)) * hqe
  have key : ((pp / (Int.gcd pp qq) : ℤ) : ℚ) / ((qq / (Int.gcd pp qq) : ℤ) : ℚ)
      = (pp : ℚ) / (qq : ℚ) := by
    rw [div_eq_div_iff (by exact_mod_cast hq1ne) (by exact_mod_cast hq : (qq : ℚ) ≠ 0)]
    exact_mod_cast hz
  rw [hp1, hq1]
  by_cases hneg : qq / (Int.gcd pp qq) < 0
  · rw [if_pos hneg]
    show ((-(pp / (Int.gcd pp qq)) : ℤ) : ℚ) / ((-(qq / (Int.gcd pp qq)) : ℤ) : ℚ) = _
    push_cast
    rw [neg_div_neg_eq]
    push_cast at key
    exact key
  · rw [if_neg hneg]
    exact key

theorem RatZ.div_add_div_scaled (p1 q1 p2 q2 l u v : ℚ)
    (h1 : u * q1 = l) (h2 : v * q2 = l) (hl : l ≠ 0) :
    (p1 * u + p2 * v) / l = p1 / q1 + p2 / q2 := by
  have hq1 : q1 ≠ 0 := by
    intro h; rw [h, mul_zero] at h1; exact hl h1.symm
  have hq2 : q2 ≠ 0 := by
    intro h; rw [h, mul_zero] at h2; exact hl h2.symm
  rw [div_add_div _ _ hq1 hq2, div_eq_div_iff hl (mul_ne_zero hq1 hq2)]
  linear_combination (p1 * q2) * h1 + (p2 * q1) * h2

theorem RatZ.tdiv_lcm_mul (a b : RatZ) :
    ((Int.lcm a.q b.q : ℤ).tdiv a.q : ℚ) * (a.q : ℚ) = ((Int.lcm a.q b.q : ℤ) : ℚ)
      ∧ ((Int.lcm a.q b.q : ℤ).tdiv b.q : ℚ) * (b.q : ℚ) = ((Int.lcm a.q b.q : ℤ) : ℚ) := by
  have hda : a.q ∣ (Int.lcm a.q b.q : ℤ) := Int.dvd_lcm_left
  have hdb : b.q ∣ (Int.lcm a.q b.q : ℤ) := Int.dvd_lcm_right
  constructor
  · rw [Int.tdiv_eq_ediv_of_dvd hda]
    exact_mod_cast congrArg (Int.cast : ℤ → ℚ) (Int.ediv_mul_cancel hda)
  · rw [Int.tdiv_eq_ediv_of_dvd hdb]
    exact_mod_cast congrArg (Int.cast : ℤ → ℚ) (Int.ediv_mul_cancel hdb)

theorem RatZ.val_add (a b : RatZ) (ha : a.Canonical) (hb : b.Canonical) :
    (a.add b).val = a.val + b.val := by
  have hl := RatZ.lcm_ne_zero a b ha hb
  have hlq : ((Int.lcm a.q b.q : ℤ) : ℚ) ≠ 0 := by exact_mod_cast hl
  obtain ⟨h1, h2⟩ := RatZ.tdiv_lcm_mul a b
  rw [RatZ.add, RatZ.val_make _ _ hl]
  push_cast
  exact RatZ.div_add_div_scaled _ _ _ _ _ _ _ h1 h2 hlq

theorem RatZ.val_sub (a b : RatZ) (ha : a.Canonical) (hb : b.Canonical) :
    (a.sub b).val = a.val - b.val := by
  have hl := RatZ.lcm_ne_zero a b ha hb
  have hlq : ((Int.lcm a.q b.q : ℤ) : ℚ) ≠ 0 := by exact_mod_cast hl
  obtain ⟨h1, h2⟩ := RatZ.tdiv_lcm_mul a b
  rw [RatZ.sub, RatZ.val_make _ _ hl]
  push_cast
  have := RatZ.div_add_div_scaled (a.p : ℚ) (a.q : ℚ) (-(b.p : ℚ)) (b.q : ℚ)
    ((Int.lcm a.q b.q : ℤ) : ℚ) _ _ h1 h2 hlq
  rw [RatZ.val, RatZ.val]
  rw [neg_mul, ← sub_eq_add_neg, neg_div, ← sub_eq_add_neg] at this
  exact this

theorem RatZ.eqR_iff_val (a b : RatZ) (hqa : 0 < a.q) (hqb : 0 < b.q) :
    a.eqR b ↔ a.val = b.val := by
  have hA : (a.q : ℚ) ≠ 0 := by exact_mod_cast hqa.ne'
  have hB : (b.q : ℚ) ≠ 0 := by exact_mod_cast hqb.ne'
  have hcast : a.eqR b ↔ ((a.p : ℚ) * (b.q : ℚ) = (a.q : ℚ) * (b.p : ℚ)) := by
    rw [RatZ.eqR]
    constructor
    · intro h; exact_mod_cast h
    · intro h; exact_mod_cast h
  rw [hcast, RatZ.val, RatZ.val, div_eq_div_iff hA hB, mul_comm (b.p : ℚ) (a.q : ℚ)]

theorem RatZ.eqR_refl (r : RatZ) : r.eqR r := mul_comm r.p r.q

theorem RatZ.add_comm_raw (a b : RatZ) : a.add b = b.add a := by
  rw [RatZ.add, RatZ.add, Int.lcm_comm b.q a.q, add_comm]

theorem RatZ.mul_comm_raw (a b : RatZ) : a.mul b = b.mul a := by
  rw [RatZ.mul, RatZ.mul, mul_comm b.p a.p, mul_comm b.q a.q]

/-! ### Pivot selection: the chosen pivot is at or below `r` and maximal -/

theorem pivotFold_ge {M N : ℕ} (A : Mat M N) (j : Fin N) (r : Fin M)
    (l : List (Fin M)) (k : Fin M) (hk : r ≤ k) :
    r ≤ l.foldl (fun k i => if r < i ∧ |A i j| > |A k j| then i else k) k := by
  induction l generalizing k with
  | nil => exact hk
  | cons i tl ih =>
    rw [List.foldl_cons]
    by_cases h : r < i ∧ |A i j| > |A k j|
    · rw [if_pos h]
      exact ih i (le_of_lt h.1)
    · rw [if_neg h]
      exact ih k hk

theorem pivotFold_mono {M N : ℕ} (A : Mat M N) (j : Fin N) (r : Fin M)
    (l : List (Fin M)) (k : Fin M) :
    |A k j| ≤ |A (l.foldl (fun k i => if r < i ∧ |A i j| > |A k j| then i else k) k) j| := by
  induction l generalizing k with
  | nil => exact le_rfl
  | cons i tl ih =>
    rw [List.foldl_cons]
    by_cases h : r < i ∧ |A i j| > |A k j|
    · rw [if_pos h]
      exact le_trans (le_of_lt h.2) (ih i)
    · rw [if_neg h]
      exact ih k

theorem pivotFold_max {M N : ℕ} (A : Mat M N) (j : Fin N) (r : Fin M)
    (l : List (Fin M)) (k : Fin M) :
    ∀ i ∈ l, r < i →
      |A i j| ≤ |A (l.foldl (fun k i => if r < i ∧ |A i j| > |A k j| then i else k) k) j| := by
  induction l generalizing k with
  | nil => intro i hi; exact absurd hi (List.not_mem_nil i)
  | cons i0 tl ih =>
    intro i hi hri
    rw [List.foldl_cons]
    rcases List.mem_cons.mp hi with rfl | hitl
    · by_cases h : r < i ∧ |A i j| > |A k j|
      · rw [if_pos h]
        exact pivotFold_mono A j r tl i
      · rw [if_neg h]
        have hle : |A i j| ≤ |A k j| := by
          by_contra hgt
          exact h ⟨hri, lt_of_not_le hgt⟩
        exact le_trans hle (pivotFold_mono A j r tl k)
    · by_cases h : r < i0 ∧ |A i0 j| > |A k j|
      · rw [if_pos h]
        exact ih i0 i hitl hri
      · rw [if_neg h]
        exact ih k i hitl hri

theorem pivotSearch_ge {M N : ℕ} (A : Mat M N) (j : Fin N) (r : Fin M) :
    r ≤ pivotSearch A j r :=
  pivotFold_ge A j r (List.finRange M) r le_rfl

theorem pivotSearch_zero_col {M N : ℕ} (A : Mat M N) (j : Fin N) (r : Fin M)
    (h0 : A (pivotSearch A j r) j = 0) : ∀ i : Fin M, r ≤ i → A i j = 0 := by
  intro i hri
  rcases eq_or_lt_of_le hri with rfl | hlt
  · have := pivotFold_mono A j r (List.finRange M) r
    rw [pivotSearch] at h0
    rw [h0, abs_zero] at this
    exact abs_nonpos_iff.mp this
  · have := pivotFold_max A j r (List.finRange M) r i (List.mem_finRange i) hlt
    rw [pivotSearch] at h0
    rw [h0, abs_zero] at this
    exact abs_nonpos_iff.mp this

/-! ### Row operations are invertible left multiplications -/

theorem sum_ite_one_mul {n : ℕ} (a : Fin n) (f : Fin n → ℚ) :
    (∑ l, (if a = l then (1 : ℚ) else 0) * f l) = f a := by
  simp

theorem sum_ite_coeff_mul {n : ℕ} (r : Fin n) (c : ℚ) (f : Fin n → ℚ) :
    (∑ l, (if l = r then c else 0) * f l) = c * f r := by
  simp

theorem det_ne_zero_of_left_inverse {n : ℕ} (E F : Mat n n) (h : F * E = 1) :
    E.det ≠ 0 := by
  intro h0
  have hdet := congrArg Matrix.det h
  rw [Matrix.det_mul, h0, mul_zero, Matrix.det_one] at hdet
  exact zero_ne_one hdet

theorem rowEquiv_refl {n m : ℕ} (B : Matrix (Fin n) (Fin m) ℚ) : RowEquiv B B :=
  ⟨1, by rw [Matrix.det_one]; exact one_ne_zero, (Matrix.one_mul B).symm⟩

theorem rowEquiv_trans {n m : ℕ} (B B' B'' : Matrix (Fin n) (Fin m) ℚ)
    (h1 : RowEquiv B B') (h2 : RowEquiv B' B'') : RowEquiv B B'' := by
  obtain ⟨E1, hE1, hB1⟩ := h1
  obtain ⟨E2, hE2, hB2⟩ := h2
  exact ⟨E2 * E1, by rw [Matrix.det_mul]; exact mul_ne_zero hE2 hE1,
    by rw [hB2, hB1, Matrix.mul_assoc]⟩

theorem scaleRow_rowEquiv {n m : ℕ} (B : Matrix (Fin n) (Fin m) ℚ) (k : Fin n)
    (c : ℚ) (hc : c ≠ 0) : RowEquiv B (scaleRow B k c) := by
  refine ⟨Matrix.diagonal (fun i => if i = k then c⁻¹ else 1), ?_, ?_⟩
  · rw [Matrix.det_diagonal]
    rw [Finset.prod_ne_zero_iff]
    intro i _
    by_cases hik : i = k
    · rw [if_pos hik]
      exact inv_ne_zero hc
    · rw [if_neg hik]
      exact one_ne_zero
  · ext i jj
    rw [Matrix.diagonal_mul, scaleRow, Matrix.of_apply]
    by_cases hik : i = k
    · rw [if_pos hik, if_pos hik, div_eq_mul_inv, mul_comm]
    · rw [if_neg hik, if_neg hik, one_mul]

theorem swapRows_rowEquiv {n m : ℕ} (B : Matrix (Fin n) (Fin m) ℚ) (k r : Fin n) :
    RowEquiv B (swapRows B k r) := by
  refine ⟨Matrix.of fun i l => if Equiv.swap k r i = l then (1 : ℚ) else 0, ?_, ?_⟩
  · refine det_ne_zero_of_left_inverse _
      (Matrix.of fun i l => if Equiv.swap k r i = l then (1 : ℚ) else 0) ?_
    ext i l
    rw [Matrix.mul_apply]
    calc (∑ x, (Matrix.of fun i l => if Equiv.swap k r i = l then (1 : ℚ) else 0) i x *
            (Matrix.of fun i l => if Equiv.swap k r i = l then (1 : ℚ) else 0) x l)
        = ∑ x, (if Equiv.swap k r i = x then (1 : ℚ) else 0) *
            (if Equiv.swap k r x = l then (1 : ℚ) else 0) := rfl
      _ = (if Equiv.swap k r (Equiv.swap k r i) = l then (1 : ℚ) else 0) :=
          sum_ite_one_mul (Equiv.swap k r i) _
      _ = (1 : Matrix (Fin n) (Fin n) ℚ) i l := by
          rw [Equiv.swap_apply_self, Matrix.one_apply]
  · ext i jj
    rw [Matrix.mul_apply]
    have hsum : (∑ x, (if Equiv.swap k r i = x then (1 : ℚ) else 0) * B x jj)
        = B (Equiv.swap k r i) jj := sum_ite_one_mul (Equiv.swap k r i) _
    calc swapRows B k r i jj = B (Equiv.swap k r i) jj := by
          rw [swapRows, Matrix.of_apply]
          by_cases hik : i = k
          · rw [if_pos hik, hik, Equiv.swap_apply_left]
          · by_cases hir : i = r
            · rw [if_neg hik, if_pos hir, hir, Equiv.swap_apply_right]
            · rw [if_neg hik, if_neg hir, Equiv.swap_apply_of_ne_of_ne hik hir]
      _ = ∑ x, (if Equiv.swap k r i = x then (1 : ℚ) else 0) * B x jj := hsum.symm
      _ = _ := rfl

theorem swapRows_apply {n m : ℕ} (B : Matrix (Fin n) (Fin m) ℚ) (k r i : Fin n)
    (j : Fin m) : swapRows B k r i j = B (Equiv.swap k r i) j := by
  rw [swapRows, Matrix.of_apply]
  by_cases hik : i = k
  · rw [if_pos hik, hik, Equiv.swap_apply_left]
  · by_cases hir : i = r
    · rw [if_neg hik, if_pos hir, hir, Equiv.swap_apply_right]
    · rw [if_neg hik, if_neg hir, Equiv.swap_apply_of_ne_of_ne hik hir]

theorem elimCol_rowEquiv {n m : ℕ} (B : Matrix (Fin n) (Fin m) ℚ) (r : Fin n)
    (j : Fin m) : RowEquiv B (elimCol B r j) := by
  set c : Fin n → ℚ := fun i => if i = r then 0 else B i j with hc
  have hcr : c r = 0 := by rw [hc]; exact if_pos rfl
  refine ⟨Matrix.of fun i l =>
    (if i = l then (1 : ℚ) else 0) - (if l = r then c i else 0), ?_, ?_⟩
  · refine det_ne_zero_of_left_inverse _ (Matrix.of fun i l =>
      (if i = l then (1 : ℚ) else 0) + (if l = r then c i else 0)) ?_
    ext i l
    rw [Matrix.mul_apply]
    have e1 : ∀ x : Fin n,
        (Matrix.of fun i l => (if i = l then (1 : ℚ) else 0) +
            (if l = r then c i else 0)) i x *
          (Matrix.of fun i l => (if i = l then (1 : ℚ) else 0) -
            (if l = r then c i else 0)) x l
        = (if i = x then (1 : ℚ) else 0) *
            ((if x = l then (1 : ℚ) else 0) - (if l = r then c x else 0))
          + (if x = r then c i else 0) *
            ((if x = l then (1 : ℚ) else 0) - (if l = r then c x else 0)) := by
      intro x
      rw [Matrix.of_apply, Matrix.of_apply, add_mul]
    rw [Finset.sum_congr rfl (fun x _ => e1 x), Finset.sum_add_distrib,
      sum_ite_one_mul i _, sum_ite_coeff_mul r (c i) _, hcr, Matrix.one_apply]
    by_cases hlr : l = r
    · subst hlr
      by_cases hil : i = l <;> simp [hil, hcr]
    · have hrl : ¬ r = l := fun h => hlr h.symm
      by_cases hil : i = l <;> simp [hil, hlr, hrl, hcr, ite_self]
  · ext i jj
    rw [Matrix.mul_apply]
    have e2 : ∀ x : Fin n,
        (Matrix.of fun i l => (if i = l then (1 : ℚ) else 0) -
            (if l = r then c i else 0)) i x * B x jj
        = (if i = x then (1 : ℚ) else 0) * B x jj -
            (if x = r then c i else 0) * B x jj := by
      intro x
      rw [Matrix.of_apply, sub_mul]
    rw [Finset.sum_congr rfl (fun x _ => e2 x), Finset.sum_sub_distrib,
      sum_ite_one_mul i _, sum_ite_coeff_mul r (c i) _, elimCol, Matrix.of_apply]
    by_cases hir : i = r
    · rw [if_pos hir, hc]
      show B i jj = B i jj - (if i = r then (0 : ℚ) else B i j) * B r jj
      rw [if_pos hir]
      ring
    · rw [if_neg hir, hc]
      show B i jj - B r jj * B i j
          = B i jj - (if i = r then (0 : ℚ) else B i j) * B r jj
      rw [if_neg hir]
      ring

/-! ### Unfolding `gaussStep` -/

theorem gaussStep_active {M N : ℕ} (j r : ℕ) (B : Mat M N) (hj : j < N) (hr : r < M)
    (hkv : B (pivotSearch B ⟨j, hj⟩ ⟨r, hr⟩) ⟨j, hj⟩ ≠ 0) :
    gaussStep j (r, B)
      = (r + 1, elimCol (swapRows (scaleRow B (pivotSearch B ⟨j, hj⟩ ⟨r, hr⟩)
          (B (pivotSearch B ⟨j, hj⟩ ⟨r, hr⟩) ⟨j, hj⟩)) (pivotSearch B ⟨j, hj⟩ ⟨r, hr⟩)
          ⟨r, hr⟩) ⟨r, hr⟩ ⟨j, hj⟩) := by
  rw [gaussStep]
  dsimp only
  rw [dif_pos hj, dif_pos hr, if_neg hkv]

theorem gaussStep_stuck {M N : ℕ} (j : ℕ) (s : ℕ × Mat M N) (hr : ¬ s.1 < M) :
    gaussStep j s = s := by
  rw [gaussStep]
  by_cases hj : j < N
  · rw [dif_pos hj, dif_neg hr]
  · rw [dif_neg hj]

theorem gaussFold_succ {M N : ℕ} (A : Mat M N) (t : ℕ) :
    gaussFold (t + 1) A = gaussStep t (gaussFold t A) := by
  rw [gaussFold, gaussFold, List.range_succ, List.foldl_append]
  rfl

/-! ### The elimination invariant on the augmented matrix -/

theorem augRel_step {n : ℕ} (A : Mat n n) (hdet : A.det ≠ 0) (t : ℕ) (htn : t < n)
    (B : Mat n (n + n)) (hrel : augRel A t (t, B)) :
    augRel A (t + 1) (gaussStep t (t, B)) := by
  obtain ⟨-, hRE, hcols⟩ := hrel
  dsimp only at hRE hcols
  have hjn : t < n + n := by omega
  have hkr : (⟨t, htn⟩ : Fin n) ≤ pivotSearch B ⟨t, hjn⟩ ⟨t, htn⟩ :=
    pivotSearch_ge B ⟨t, hjn⟩ ⟨t, htn⟩
  have hkt : t ≤ (pivotSearch B ⟨t, hjn⟩ ⟨t, htn⟩).1 := hkr
  by_cases hkv : B (pivotSearch B ⟨t, hjn⟩ ⟨t, htn⟩) ⟨t, hjn⟩ = 0
  · -- a zero pivot column would make `A` singular
    exfalso
    have hzero : ∀ i : Fin n, (⟨t, htn⟩ : Fin n) ≤ i → B i ⟨t, hjn⟩ = 0 :=
      pivotSearch_zero_col B ⟨t, hjn⟩ ⟨t, htn⟩ hkv
    obtain ⟨E, hE, hBE⟩ := hRE
    set L : Mat n n := Matrix.of fun i j2 =>
      B i ⟨j2.1, Nat.lt_of_lt_of_le j2.isLt (Nat.le_add_right n n)⟩ with hLdef
    have hLEA : L = E * A := by
      ext i j2
      rw [hLdef, Matrix.of_apply, hBE, Matrix.mul_apply, Matrix.mul_apply]
      apply Finset.sum_congr rfl
      intro l _
      congr 1
      rw [augId, Matrix.of_apply, dif_pos (j2.isLt :
        (⟨j2.1, Nat.lt_of_lt_of_le j2.isLt (Nat.le_add_right n n)⟩ : Fin (n + n)).1 < n)]
    have hdetL : L.det ≠ 0 := by
      rw [hLEA, Matrix.det_mul]
      exact mul_ne_zero hE hdet
    set v : Fin n → ℚ := fun l =>
      if l.1 < t then L l ⟨t, htn⟩ else if l.1 = t then -1 else 0 with hvdef
    have hv0 : v ≠ 0 := by
      intro h
      have h1 := congrFun h ⟨t, htn⟩
      rw [hvdef] at h1
      simp at h1
    have hLcol : ∀ (jv : ℕ) (hjv : jv < t) (i : Fin n),
        L i ⟨jv, by omega⟩ = if i.1 = jv then 1 else 0 := by
      intro jv hjv i
      rw [hLdef, Matrix.of_apply]
      exact hcols jv hjv _ i
    have hLt0 : ∀ i : Fin n, t ≤ i.1 → L i ⟨t, htn⟩ = 0 := by
      intro i hti
      rw [hLdef, Matrix.of_apply]
      exact hzero i hti
    have hmv : L.mulVec v = 0 := by
      funext i
      show (∑ x, L i x * v x) = 0
      have hterm : ∀ x : Fin n, L i x * v x =
          (if x = i ∧ i.1 < t then L i ⟨t, htn⟩ else 0) +
            (if x = (⟨t, htn⟩ : Fin n) then -(L i ⟨t, htn⟩) else 0) := by
        intro x
        rcases lt_trichotomy x.1 t with hxt | hxt | hxt
        · have hLix : L i x = if i.1 = x.1 then 1 else 0 := by
            have := hLcol x.1 hxt i
            rw [Fin.eta] at this
            exact this
          rw [hvdef]
          show L i x * (if x.1 < t then L x ⟨t, htn⟩ else if x.1 = t then -1 else 0) = _
          rw [if_pos hxt, hLix]
          have hxrf : ¬ x = (⟨t, htn⟩ : Fin n) := by
            intro h
            rw [h] at hxt
            exact lt_irrefl t hxt
          rw [if_neg hxrf]
          by_cases hix : i.1 = x.1
          · have hxi : x = i := Fin.val_injective hix.symm
            rw [if_pos hix, if_pos ⟨hxi, by omega⟩, one_mul, hxi, add_zero]
          · have hxi : ¬ (x = i ∧ i.1 < t) := by
              intro h
              exact hix (by rw [h.1])
            rw [if_neg hix, if_neg hxi, zero_mul, add_zero]
        · have hxrf : x = (⟨t, htn⟩ : Fin n) := Fin.val_injective hxt
          rw [hvdef]
          show L i x * (if x.1 < t then L x ⟨t, htn⟩ else if x.1 = t then -1 else 0) = _
          rw [if_neg (by omega : ¬ x.1 < t), if_pos hxt, if_pos hxrf]
          have hxi : ¬ (x = i ∧ i.1 < t) := by
            intro h
            rw [← h.1] at h
            omega
          rw [if_neg hxi, hxrf]
          ring
        · rw [hvdef]
          show L i x * (if x.1 < t then L x ⟨t, htn⟩ else if x.1 = t then -1 else 0) = _
          rw [if_neg (by omega : ¬ x.1 < t), if_neg (by omega : ¬ x.1 = t), mul_zero]
          have hxi : ¬ (x = i ∧ i.1 < t) := by
            intro h
            rw [← h.1] at h
            omega
          have hxrf : ¬ x = (⟨t, htn⟩ : Fin n) := by
            intro h
            rw [h] at hxt
            exact lt_irrefl t hxt
          rw [if_neg hxi, if_neg hxrf, add_zero]
      rw [Finset.sum_congr rfl (fun x _ => hterm x), Finset.sum_add_distrib]
      have hsum1 : (∑ x, if x = i ∧ i.1 < t then L i ⟨t, htn⟩ else 0)
          = if i.1 < t then L i ⟨t, htn⟩ else 0 := by
        by_cases hit : i.1 < t
        · rw [if_pos hit]
          have : ∀ x : Fin n, (if x = i ∧ i.1 < t then L i ⟨t, htn⟩ else 0)
              = if x = i then L i ⟨t, htn⟩ else 0 := by
            intro x
            by_cases hxi : x = i
            · rw [if_pos ⟨hxi, hit⟩, if_pos hxi]
            · rw [if_neg (fun h => hxi h.1), if_neg hxi]
          rw [Finset.sum_congr rfl (fun x _ => this x),
            Finset.sum_ite_eq' Finset.univ i (fun _ => L i ⟨t, htn⟩),
            if_pos (Finset.mem_univ i)]
        · rw [if_neg hit]
          rw [Finset.sum_congr rfl (fun x _ => if_neg (fun h : x = i ∧ i.1 < t => hit h.2)),
            Finset.sum_const_zero]
      have hsum2 : (∑ x, if x = (⟨t, htn⟩ : Fin n) then -(L i ⟨t, htn⟩) else 0)
          = -(L i ⟨t, htn⟩) := by
        rw [Finset.sum_ite_eq' Finset.univ (⟨t, htn⟩ : Fin n) (fun _ => -(L i ⟨t, htn⟩)),
          if_pos (Finset.mem_univ _)]
      rw [hsum1, hsum2]
      by_cases hit : i.1 < t
      · rw [if_pos hit]
        show L i ⟨t, htn⟩ + -(L i ⟨t, htn⟩) = (0 : Fin n → ℚ) i
        rw [Pi.zero_apply]
        ring
      · rw [if_neg hit, hLt0 i (by omega)]
        show 0 + -(0 : ℚ) = (0 : Fin n → ℚ) i
        rw [Pi.zero_apply]
        ring
    exact hdetL (Matrix.exists_mulVec_eq_zero_iff.mp ⟨v, hv0, hmv⟩)
  · -- non-zero pivot: the step reduces column `t` to the identity column
    rw [gaussStep_active t t B hjn htn hkv]
    set k := pivotSearch B ⟨t, hjn⟩ ⟨t, htn⟩ with hkdef
    set B1 := scaleRow B k (B k ⟨t, hjn⟩) with hB1def
    set B2 := swapRows B1 k ⟨t, htn⟩ with hB2def
    set B3 := elimCol B2 ⟨t, htn⟩ ⟨t, hjn⟩ with hB3def
    have hrfv : ((⟨t, htn⟩ : Fin n) : ℕ) = t := rfl
    refine ⟨rfl, ?_, ?_⟩
    · rw [hB3def, hB2def, hB1def]
      exact rowEquiv_trans _ _ _ (rowEquiv_trans _ _ _ (rowEquiv_trans _ _ _ hRE
        (scaleRow_rowEquiv B k _ hkv)) (swapRows_rowEquiv B1 k ⟨t, htn⟩))
        (elimCol_rowEquiv B2 ⟨t, htn⟩ ⟨t, hjn⟩)
    · intro jv hjv hj2 i
      by_cases hjvt : jv < t
      · -- the columns already reduced stay reduced
        have hBcol := hcols jv hjvt hj2
        have hkjv : ¬ ((k : ℕ) = jv) := by omega
        have htjv : ¬ (((⟨t, htn⟩ : Fin n)) : ℕ) = jv := by omega
        have hB1col : ∀ i' : Fin n, B1 i' ⟨jv, hj2⟩ = if (i' : ℕ) = jv then 1 else 0 := by
          intro i'
          rw [hB1def, scaleRow, Matrix.of_apply]
          by_cases hik : i' = k
          · rw [if_pos hik, hik, hBcol k, if_neg hkjv, zero_div]
          · rw [if_neg hik]
            exact hBcol i'
        have hB2col : ∀ i' : Fin n, B2 i' ⟨jv, hj2⟩ = if (i' : ℕ) = jv then 1 else 0 := by
          intro i'
          rw [hB2def, swapRows_apply, hB1col (Equiv.swap k ⟨t, htn⟩ i')]
          by_cases hik : i' = k
          · rw [hik, Equiv.swap_apply_left, if_neg htjv, if_neg hkjv]
          · by_cases hirf : i' = ⟨t, htn⟩
            · rw [hirf, Equiv.swap_apply_right, if_neg hkjv, if_neg htjv]
            · rw [Equiv.swap_apply_of_ne_of_ne hik hirf]
        show B3 i ⟨jv, hj2⟩ = if (i : ℕ) = jv then 1 else 0
        rw [hB3def, elimCol, Matrix.of_apply]
        by_cases hirf : i = ⟨t, htn⟩
        · rw [if_pos hirf]
          exact hB2col i
        · rw [if_neg hirf, hB2col ⟨t, htn⟩, if_neg htjv, zero_mul, sub_zero]
          exact hB2col i
      · -- the freshly processed column becomes the identity column
        have hjveq : jv = t := by omega
        subst hjveq
        show B3 i ⟨jv, hjn⟩ = if (i : ℕ) = jv then 1 else 0
        have hB1k : B1 k ⟨jv, hjn⟩ = 1 := by
          rw [hB1def, scaleRow, Matrix.of_apply, if_pos rfl]
          exact div_self hkv
        have hB2rf : B2 (⟨jv, htn⟩ : Fin n) ⟨jv, hjn⟩ = 1 := by
          rw [hB2def, swapRows_apply, Equiv.swap_apply_right, hB1k]
        rw [hB3def, elimCol, Matrix.of_apply]
        by_cases hirf : i = ⟨jv, htn⟩
        · rw [if_pos hirf, hirf, hB2rf, if_pos hrfv]
        · rw [if_neg hirf, hB2rf, one_mul, sub_self,
            if_neg (fun h : (i : ℕ) = jv => hirf (Fin.val_injective h))]

theorem augId_left {n : ℕ} (A : Mat n n) (l j : Fin n) (c : Fin (n + n))
    (hc : (c : ℕ) = (j : ℕ)) : augId A l c = A l j := by
  have hcn : (c : ℕ) < n := by omega
  rw [augId, Matrix.of_apply, dif_pos hcn]
  congr 1
  exact Fin.val_injective hc

theorem augId_right {n : ℕ} (A : Mat n n) (l j : Fin n) (c : Fin (n + n))
    (hc : (c : ℕ) = (j : ℕ) + n) : augId A l c = if l = j then 1 else 0 := by
  rw [augId, Matrix.of_apply, dif_neg (by omega : ¬ (c : ℕ) < n)]
  by_cases hlj : l = j
  · rw [if_pos (by rw [hlj, hc]), if_pos hlj]
  · rw [if_neg (fun h : (l : ℕ) + n = (c : ℕ) =>
      hlj (Fin.val_injective (by omega))), if_neg hlj]

theorem augRel_gaussFold {n : ℕ} (A : Mat n n) (hdet : A.det ≠ 0) :
    ∀ t : ℕ, t ≤ n → augRel A t (gaussFold t (augId A)) := by
  intro t
  induction t with
  | zero =>
    intro _
    exact ⟨rfl, rowEquiv_refl _, fun jv hjv _ _ => absurd hjv (Nat.not_lt_zero jv)⟩
  | succ t ih =>
    intro ht
    have hrel := ih (Nat.le_of_succ_le ht)
    have hfst : (gaussFold t (augId A)).1 = t := hrel.1
    have hpair : gaussFold t (augId A) = (t, (gaussFold t (augId A)).2) :=
      Prod.ext_iff.mpr ⟨hfst, rfl⟩
    rw [gaussFold_succ, hpair]
    exact augRel_step A hdet t (Nat.lt_of_succ_le ht) _ (hpair ▸ hrel)

theorem gaussFold_stable {M N : ℕ} (A : Mat M N) (t u : ℕ)
    (h : ¬ (gaussFold t A).1 < M) : gaussFold (t + u) A = gaussFold t A := by
  induction u with
  | zero => rfl
  | succ u ih =>
    show gaussFold ((t + u) + 1) A = gaussFold t A
    rw [gaussFold_succ, ih, gaussStep_stuck _ _ h]

theorem gaussStepLog_spec {M N : ℕ} (j : ℕ) (s : ℕ × Mat M N × List ℚ) :
    (gaussStepLog j s).1 = (gaussStep j (s.1, s.2.1)).1 ∧
      (gaussStepLog j s).2.1 = (gaussStep j (s.1, s.2.1)).2 ∧
      ∀ d ∈ (gaussStepLog j s).2.2, d ∈ s.2.2 ∨ d ≠ 0 := by
  dsimp only [gaussStepLog, gaussStep]
  by_cases hj : j < N
  · rw [dif_pos hj, dif_pos hj]
    by_cases hr : s.1 < M
    · rw [dif_pos hr, dif_pos hr]
      by_cases hz : s.2.1 (pivotSearch s.2.1 ⟨j, hj⟩ ⟨s.1, hr⟩) ⟨j, hj⟩ = 0
      · rw [if_pos hz, if_pos hz]
        exact ⟨rfl, rfl, fun d hd => Or.inl hd⟩
      · rw [if_neg hz, if_neg hz]
        refine ⟨rfl, rfl, fun d hd => ?_⟩
        rcases List.mem_append.mp hd with h | h
        · exact Or.inl h
        · exact Or.inr (by rw [List.mem_singleton.mp h]; exact hz)
    · rw [dif_neg hr, dif_neg hr]
      exact ⟨rfl, rfl, fun d hd => Or.inl hd⟩
  · rw [dif_neg hj, dif_neg hj]
    exact ⟨rfl, rfl, fun d hd => Or.inl hd⟩

theorem gaussLog_fold_spec {M N : ℕ} (A : Mat M N) (t : ℕ) :
    ((((List.range t).foldl (fun s j => gaussStepLog j s) (0, A, [])).1,
        ((List.range t).foldl (fun s j => gaussStepLog j s) (0, A, [])).2.1)
      = gaussFold t A) ∧
    ∀ d ∈ ((List.range t).foldl (fun s j => gaussStepLog j s) (0, A, [])).2.2,
      d ≠ 0 := by
  induction t with
  | zero => exact ⟨rfl, fun d hd => absurd hd (List.not_mem_nil d)⟩
  | succ t ih =>
    obtain ⟨ihpair, ihlog⟩ := ih
    rw [gaussFold_succ, List.range_succ, List.foldl_append]
    simp only [List.foldl_cons, List.foldl_nil]
    obtain ⟨h1, h2, h3⟩ := gaussStepLog_spec t
      ((List.range t).foldl (fun s j => gaussStepLog j s) (0, A, []))
    constructor
    · exact Prod.ext_iff.mpr
        ⟨h1.trans (congrArg (fun z => (gaussStep t z).1) ihpair),
          h2.trans (congrArg (fun z => (gaussStep t z).2) ihpair)⟩
    · intro d hd
      rcases h3 d hd with h | h
      · exact ihlog d h
      · exact h

/-! ## Claim theorems -/

/-- C9: `gauss` terminates on every input (it is a total function of this
development) and never divides by zero: the instrumented run `gaussLog`, which
records the divisor of every division the elimination performs (all divisions
happen in the pivot-row normalization), computes the same reduced matrix and
logs only non-zero divisors, because the normalization is guarded by the
`kv == 0` column-skip test. -/
theorem gauss_never_divides_by_zero (M N : ℕ) (A : Mat M N) :
    (gaussLog A).1 = gauss A ∧ ∀ d ∈ (gaussLog A).2, d ≠ 0 := by
  obtain ⟨hpair, hlog⟩ := gaussLog_fold_spec A N
  constructor
  · rw [gaussLog, gauss]
    exact congrArg Prod.snd hpair
  · exact fun d hd => hlog d hd

/-- C6: the constructor (on a non-zero denominator) and the arithmetic
operators `+`, `-`, `*` on any canonical operands — and `/` whenever the
divisor's numerator is non-zero, the claim's only non-zero side condition —
produce canonical rationals (positive denominator, coprime components), and
re-constructing a canonical rational from its own components returns it
unchanged. -/
theorem rational_always_reduced (p q : ℤ) (hq : q ≠ 0) (a b : RatZ)
    (ha : a.Canonical) (hb : b.Canonical) :
    (RatZ.make p q).Canonical ∧ (a.mul b).Canonical ∧
      (b.p ≠ 0 → (a.div b).Canonical) ∧
      (a.add b).Canonical ∧ (a.sub b).Canonical ∧ RatZ.make a.p a.q = a :=
  ⟨RatZ.make_canonical p q hq, RatZ.mul_canonical a b ha hb,
    fun hbp => RatZ.div_canonical a b ha hbp, RatZ.add_canonical a b ha hb,
    RatZ.sub_canonical a b ha hb, RatZ.make_self a ha⟩

/-- Witness for C6 at `p/q = 6/(-4)`, `a = 2/3`, `b = -5/7` (the non-zero
divisor premise of the division conjunct discharged at `-5 ≠ 0`). -/
theorem rational_always_reduced_witness :
    (RatZ.make 6 (-4)).Canonical ∧
      (RatZ.mul ⟨2, 3⟩ ⟨-5, 7⟩).Canonical ∧ (RatZ.div ⟨2, 3⟩ ⟨-5, 7⟩).Canonical ∧
      (RatZ.add ⟨2, 3⟩ ⟨-5, 7⟩).Canonical ∧ (RatZ.sub ⟨2, 3⟩ ⟨-5, 7⟩).Canonical ∧
      RatZ.make (2 : ℤ) (3 : ℤ) = ⟨2, 3⟩ := by
  obtain ⟨h1, h2, h3, h4, h5, h6⟩ :=
    rational_always_reduced 6 (-4) (by decide) ⟨2, 3⟩ ⟨-5, 7⟩ (by decide) (by decide)
  exact ⟨h1, h2, h3 (by decide), h4, h5, h6⟩

/-- C7: evaluating the source's `signbit` — `not(signbit(p) xor signbit(q))` —
on concrete canonical rationals: it returns `false` on the negative rational
`-1/2` and `true` on the non-negative rationals `1/2` and `0`, the exact
opposite of its own documentation ("true if negative, false otherwise") and of
the spec ("true (negative) iff numerator and denominator carry opposite
signs"). -/
theorem signbit_inverted :
    RatZ.signbit { p := -1, q := 2 } = false ∧
      RatZ.signbit { p := 1, q := 2 } = true ∧
      RatZ.signbit { p := 0, q := 1 } = true := by
  decide

/-- C8: addition and multiplication commute (already as constructed values,
hence under the cross-multiplying `operator==`), and `(a + b) - b == a`. -/
theorem rational_comm_roundtrip (a b : RatZ) (ha : a.Canonical) (hb : b.Canonical) :
    (a.add b).eqR (b.add a) ∧ (a.mul b).eqR (b.mul a) ∧
      ((a.add b).sub b).eqR a := by
  refine ⟨?_, ?_, ?_⟩
  · rw [RatZ.add_comm_raw]
    exact RatZ.eqR_refl _
  · rw [RatZ.mul_comm_raw]
    exact RatZ.eqR_refl _
  · have hab := RatZ.add_canonical a b ha hb
    have hs := RatZ.sub_canonical _ b hab hb
    rw [RatZ.eqR_iff_val _ _ hs.1 ha.1, RatZ.val_sub _ _ hab hb,
      RatZ.val_add _ _ ha hb]
    ring

/-- Witness for C8 at `a = 1/2`, `b = -2/3`. -/
theorem rational_comm_roundtrip_witness :
    ((RatZ.add ⟨1, 2⟩ ⟨-2, 3⟩).eqR (RatZ.add ⟨-2, 3⟩ ⟨1, 2⟩)) ∧
      ((RatZ.mul ⟨1, 2⟩ ⟨-2, 3⟩).eqR (RatZ.mul ⟨-2, 3⟩ ⟨1, 2⟩)) ∧
      (((RatZ.add ⟨1, 2⟩ ⟨-2, 3⟩).sub ⟨-2, 3⟩).eqR ⟨1, 2⟩) :=
  rational_comm_roundtrip ⟨1, 2⟩ ⟨-2, 3⟩ (by decide) (by decide)

/-- C1: for every non-singular square matrix `A` over the exact rationals,
`gauss_inv(A) * A` is the identity: the Gauss-Jordan elimination of `[A | I]`
leaves a left inverse of `A` in the right half.  (Every elimination pass is an
invertible row operation; were a pivot column all zero at or below the pivot
row, the already-reduced left columns would exhibit a non-trivial kernel
vector of an invertible transform of `A`, contradicting non-singularity — so
every column is processed, the left half ends as `I`, and the right half is
the accumulated transform `E` with `E * A = I`.) -/
theorem gaussInv_mul_left_inverse (n : ℕ) (A : Mat n n) (hdet : A.det ≠ 0) :
    gaussInv A * A = 1 := by
  obtain ⟨hidx, hRE, hcols⟩ := augRel_gaussFold A hdet n le_rfl
  obtain ⟨E, hE, hBE⟩ := hRE
  have hstuck : ¬ (gaussFold n (augId A)).1 < n := by
    rw [hidx]
    omega
  have hgauss : gauss (augId A) = (gaussFold n (augId A)).2 := by
    rw [gauss, gaussFold_stable (augId A) n n hstuck]
  have hEA : E * A = 1 := by
    ext i j
    have hj2 : (j : ℕ) < n + n := by omega
    have hcol := hcols j.1 j.isLt hj2 i
    rw [hBE] at hcol
    have hE2 : ∀ cc : Fin (n + n), (cc : ℕ) = (j : ℕ) →
        (E * augId A) i cc = (E * A) i j := by
      intro cc hcc
      rw [Matrix.mul_apply, Matrix.mul_apply]
      exact Finset.sum_congr rfl (fun l _ => by rw [augId_left A l j cc hcc])
    rw [← hE2 ⟨j.1, hj2⟩ rfl, hcol, Matrix.one_apply]
    by_cases hij : i = j
    · rw [if_pos (congrArg Fin.val hij), if_pos hij]
    · rw [if_neg (fun h => hij (Fin.val_injective h)), if_neg hij]
  have hInv : gaussInv A = E := by
    ext i j
    have hsum : ∀ cc : Fin (n + n), (cc : ℕ) = (j : ℕ) + n →
        (∑ l, E i l * augId A l cc) = E i j := by
      intro cc hcc
      rw [Finset.sum_congr rfl (fun l _ => by
        rw [augId_right A l j cc hcc, mul_ite, mul_one, mul_zero]),
        Finset.sum_ite_eq' Finset.univ j (fun l => E i l),
        if_pos (Finset.mem_univ j)]
    rw [gaussInv, Matrix.of_apply, hgauss, hBE, Matrix.mul_apply]
    exact hsum _ rfl
  rw [hInv, hEA]

/-- Witness for C1 at the non-singular 1×1 matrix `[[2]]`. -/
theorem gaussInv_mul_left_inverse_witness :
    (Matrix.of ![![(2 : ℚ)]]).det ≠ 0 ∧
      gaussInv (Matrix.of ![![(2 : ℚ)]]) * Matrix.of ![![(2 : ℚ)]] = 1 :=
  ⟨by with_unfolding_all decide,
    gaussInv_mul_left_inverse 1 (Matrix.of ![![(2 : ℚ)]])
      (by with_unfolding_all decide)⟩

/-- C2: on the singular matrix `[[0]]`, `gauss_inv` silently returns the
garbage "inverse" `[[1]]` (no error path exists — the routine is `noexcept`
and the zero-pivot column is skipped), and that result is not an inverse;
likewise `solve()` on a completely unfilled builder quietly returns a
polynomial (with identity coefficient table) instead of reporting failure. -/
theorem gaussInv_singular_silent :
    gaussInv singularOne = Matrix.of ![![(1 : ℚ)]] ∧
      gaussInv singularOne * singularOne ≠ 1 ∧
      ((Scheme.init 2).solve).coeffs 0 0 = 1 := by
  with_unfolding_all decide

/-- C3: the central three-point finite-difference scheme: solving the
`Order = 2` builder whose rows are the basis at `-1, 0, 1` and evaluating the
first derivative at `0` yields the classic stencil `(-1/2, 0, 1/2)`. -/
theorem central_difference_stencil :
    ((fd3.solve.derivate 1).eval 0) = ![-(1 : ℚ)/2, 0, 1/2] := by
  with_unfolding_all decide

/-- C4: evaluating `derivate` at the failing input `P(x) = x` (Degree 1, one
channel): the source's `Degree == 1` early-return produces the zero
polynomial for `order = 1`, although the claimed formula
`coeffs'[d-1][i] = d·coeffs[d][i]` demands `coeffs'[0][0] = 1·coeffs[1][0] = 1`. -/
theorem derivate_linear_loses_constant :
    (xPoly.derivate 1).coeffs 0 0 = 0 ∧ xPoly.coeffs 1 0 = 1 := by
  with_unfolding_all decide

/-- C5: evaluating `primitive().derivate()` at the failing input `P = 1`
(Degree 0, one channel): the primitive is `x` (coefficient 1 at degree 1),
but `derivate` then hits the `Degree == 1` early-return and yields the zero
polynomial instead of recovering `P`. -/
theorem primitive_derivate_loses_constant :
    ((onePoly.primitive).derivate 1).coeffs 0 0 = 0 ∧
      ((onePoly.primitive).derivate 1).coeffs 1 0 = 0 ∧
      (onePoly.primitive).coeffs 1 0 = 1 ∧
      onePoly.coeffs 0 0 = 1 := by
  with_unfolding_all decide

/-- C10: `solve()` is a pure query of the accumulated matrix: it never reads
the row cursor `index`, so any two builder values with the same matrix — in
particular the same builder before and after further cursor movement — solve
to the same polynomial, and the builder value itself is untouched (all
builder operations are value-semantics copies). -/
theorem solve_reads_only_matrix (n : ℕ) (S₁ S₂ : Scheme n)
    (h : S₁.matrix = S₂.matrix) : S₁.solve = S₂.solve := by
  rw [Scheme.solve, Scheme.solve, h]

/-- Witness for C10: two order-0 builders sharing a matrix but with cursors 0
and 5 solve identically. -/
theorem solve_reads_only_matrix_witness :
    (Scheme.init 0).solve =
      ({ matrix := (Scheme.init 0).matrix, index := 5 } : Scheme 0).solve :=
  solve_reads_only_matrix 0 _ _ rfl

end PolySche
